import Mathlib

/-!
Verification of the session engine of the ChineseFlashcards repository
(`flashcards.py`): the raw-keystroke decoder `get_key`, the quit-phrase
detector `check_for_quit`, the adaptive requeue scheduler of `run_quiz`,
and the practice navigator of `run_practice`, shallowly embedded as
executable Lean functions, with theorems about the spec's testable
properties.

Conventions of the embedding:
* Python's `random.randint(a, b)` (inclusive bounds) is modelled by
  `randint r a b = a + r % (b - a + 1)` where `r` is the next value of an
  arbitrary oracle stream `rnd : Nat → Nat`; every value of the inclusive
  range is reachable and no other value is.
* `time.time()` readings are modelled by a monotone stream of millisecond
  clock values.
* Keyboard input is modelled by streams: `keys : Nat → Option Char` for
  decoded keys (`None` for absorbed noise), and a stream of
  correct/incorrect judgments `judge : Nat → Bool` for the answer step of
  the quiz (space = correct = `true`, x/X = incorrect = `false`); the
  reveal step consumes no state.  Typing `quit` ends a session early and
  mutates no scheduler state, so the scheduler theorems are stated over
  every prefix of the quit-free run, which includes every quit-truncated
  session.
-/

namespace Flashcards

/-- One deck entry as `load_words` builds it from `words.csv`:
`{'pinyin', 'meaning', 'tone', 'group', 'character'}`.  Scheduling identity
is the `pinyin` field (`repeat_words` is keyed by `word['pinyin']`). -/
structure Word where
  pinyin : String
  meaning : String
  tone : String
  group : Int
  character : String
deriving DecidableEq, Repr

/-! ### KeyDecoder: `get_key` (flashcards.py lines 64-113)

The Unix branch reads one character `ch`; the escape-drain and
control-drain sub-states only discard further input and both end in
`return None`, so the returned value is a function of the first character
alone, embedded below.  The function is total: no input propagates an
error. -/

/-- The escape byte `'\x1b'` (`ESC`, code point 27). -/
def escChar : Char := Char.ofNat 27

/-- The recognized command characters of `get_key`, the string
`'qQxX0123456789pdwmsPDWMSuUiItTbBhH'` of the source (space is tested
separately by the source, and separately here). -/
def allowedChars : List Char :=
  ['q', 'Q', 'x', 'X', '0', '1', '2', '3', '4', '5', '6', '7', '8', '9',
   'p', 'd', 'w', 'm', 's', 'P', 'D', 'W', 'M', 'S',
   'u', 'U', 'i', 'I', 't', 'T', 'b', 'B', 'h', 'H']

/-- `get_key` as a function of the first character read: escape sequences
and control characters are absorbed and yield `none`; a recognized command
character is returned; anything else is noise and yields `none`. -/
def get_key (ch : Char) : Option Char :=
  if ch = escChar then none
  else if ch.toNat < 32 ∧ ch ≠ ' ' then none
  else if ch = ' ' ∨ ch ∈ allowedChars then some ch
  else none

/-- A character `get_key` accepts: the space character or one of the
recognized command characters. -/
def recognizedKey (ch : Char) : Prop := ch = ' ' ∨ ch ∈ allowedChars

instance (ch : Char) : Decidable (recognizedKey ch) := by
  unfold recognizedKey; infer_instance

/-- Every character of `allowedChars` has code point at least 32. -/
lemma allowedChars_ge_32 : allowedChars.all (fun c => 32 ≤ c.toNat) = true := by
  decide

/-- C5.  `get_key` returns its input exactly on the recognized set
(space, q/Q, x/X, 0-9, p/P, d/D, w/W, m/M, s/S, u/U, i/I, t/T, b/B, h/H);
every other character — the escape byte, control bytes below 32, and all
other unrecognized characters — yields `none`.  Totality of the Lean
function embeds the guarantee that no input propagates an error. -/
theorem get_key_exact (ch : Char) :
    (get_key ch = some ch ↔ recognizedKey ch) ∧
      (get_key ch = none ↔ ¬ recognizedKey ch) := by
  have hmem : ch ∈ allowedChars → 32 ≤ ch.toNat := by
    intro h
    exact of_decide_eq_true ((List.all_eq_true.mp allowedChars_ge_32) ch h)
  have hrec : recognizedKey ch → ¬ (ch.toNat < 32 ∧ ch ≠ ' ') := by
    rintro (rfl | h) ⟨hlt, hne⟩
    · exact hne rfl
    · exact absurd (hmem h) (by omega)
  have hesc : ch = escChar → ¬ recognizedKey ch := by
    rintro rfl (h | h) <;> revert h <;> decide
  unfold get_key recognizedKey
  unfold recognizedKey at hrec hesc
  constructor
  · constructor
    · intro h
      split at h
      · exact absurd h (by simp)
      · split at h
        · exact absurd h (by simp)
        · split at h
          · assumption
          · exact absurd h (by simp)
    · intro h
      rw [if_neg (fun he => hesc he h), if_neg (hrec h), if_pos h]
  · constructor
    · intro h hr
      rw [if_neg (fun he => hesc he hr), if_neg (hrec hr), if_pos hr] at h
      exact absurd h (by simp)
    · intro h
      split
      · rfl
      · split
        · rfl
        · simp [h]

/-! ### QuitPhraseDetector: `check_for_quit` (flashcards.py lines 116-148) -/

/-- The literal quit phrase `'quit'`, as a list of characters. -/
def quitWord : List Char := ['q', 'u', 'i', 't']

/-- The waiting loop of `check_for_quit`: buffer starts at `'q'`; each
iteration first checks `len(buffer) < 4 and time.time() < timeout`, then
calls `get_key()`.  `keys i` is the result of the `i`-th `get_key()` call
made inside the loop, `clock i` the millisecond reading of `time.time()`
(relative to entry, deadline 1000 ms) at the `i`-th condition check.
A `none` key is skipped; otherwise the lower-cased key is appended; a
buffer equal to `'quit'` returns `true` at once; a buffer that is not a
prefix of `'quit'` returns `false` at once; leaving the loop returns
`false`.  `fuel` bounds the modelled iterations; running out yields
`false`, and `check_for_quit_iff` is proved for every fuel. -/
def quit_loop (keys : Nat → Option Char) (clock : Nat → Nat) :
    Nat → Nat → List Char → Bool
  | 0, _, _ => false
  | fuel + 1, i, buffer =>
    if buffer.length < 4 ∧ clock i < 1000 then
      match keys i with
      | none => quit_loop keys clock fuel (i + 1) buffer
      | some k =>
        let buffer' := buffer ++ [k.toLower]
        if buffer' = quitWord then true
        else if ¬ (buffer' <+: quitWord) then false
        else quit_loop keys clock fuel (i + 1) buffer'
    else false

/-- `check_for_quit(key)`: a `None` key or a key other than q/Q returns
`false` without consuming input; a q/Q key enters `quit_loop` with buffer
`'q'`. -/
def check_for_quit (keys : Nat → Option Char) (clock : Nat → Nat) (fuel : Nat)
    (key : Option Char) : Bool :=
  match key with
  | none => false
  | some k => if k.toLower ≠ 'q' then false else quit_loop keys clock fuel 0 ['q']

/-- The keys the decoder delivered at call indices `i, i+1, ..., i+len-1`,
with the `none` results skipped. -/
def decodedFrom (keys : Nat → Option Char) (i len : Nat) : List Char :=
  (List.range' i len).filterMap keys

lemma decodedFrom_succ (keys : Nat → Option Char) (i len : Nat) :
    decodedFrom keys i (len + 1) =
      (keys i).toList ++ decodedFrom keys (i + 1) len := by
  unfold decodedFrom
  rw [List.range'_succ i len 1, List.filterMap_cons]
  cases keys i <;> simp

/-- Core loop characterization, generalized over the part of `'uit'`
already accumulated in the buffer. -/
lemma quit_loop_true_iff (keys : Nat → Option Char) (clock : Nat → Nat)
    (hm : ∀ a b, a ≤ b → clock a ≤ clock b) :
    ∀ fuel i acc, acc <+: ['u', 'i', 't'] → acc ≠ ['u', 'i', 't'] →
      (quit_loop keys clock fuel i ('q' :: acc) = true ↔
        ∃ n, i ≤ n ∧ n < i + fuel ∧ clock n < 1000 ∧ (keys n).isSome ∧
          acc ++ (decodedFrom keys i (n + 1 - i)).map Char.toLower =
            ['u', 'i', 't']) := by
  intro fuel
  induction fuel with
  | zero =>
    intro i acc _ _
    simp only [quit_loop]
    constructor
    · intro h; cases h
    · rintro ⟨n, h1, h2, -⟩; omega
  | succ fuel ih =>
    intro i acc hacc hne
    have hlen : ('q' :: acc).length < 4 := by
      have h3 : acc.length ≤ 3 := by
        simpa using hacc.length_le
      rcases Nat.lt_or_ge acc.length 3 with h | h
      · simp; omega
      · exact absurd (hacc.eq_of_length (by simpa using Nat.le_antisymm h3 h)) hne
    by_cases hclock : clock i < 1000
    · rw [quit_loop, if_pos ⟨hlen, hclock⟩]
      cases hk : keys i with
      | none =>
        rw [ih (i + 1) acc hacc hne]
        constructor
        · rintro ⟨n, h1, h2, h3, h4, h5⟩
          refine ⟨n, by omega, by omega, h3, h4, ?_⟩
          have hn : n + 1 - i = (n - i) + 1 := by omega
          rw [hn, decodedFrom_succ, hk]
          simpa [show n + 1 - (i + 1) = n - i by omega] using h5
        · rintro ⟨n, h1, h2, h3, h4, h5⟩
          have hni : i < n := by
            rcases Nat.lt_or_ge i n with h | h
            · exact h
            · have : n = i := by omega
              subst this
              rw [hk] at h4; cases h4
          refine ⟨n, by omega, by omega, h3, h4, ?_⟩
          have hn : n + 1 - i = (n - i) + 1 := by omega
          rw [hn, decodedFrom_succ, hk] at h5
          simpa [show n + 1 - (i + 1) = n - i by omega] using h5
      | some k =>
        simp only
        by_cases heq : acc ++ [k.toLower] = ['u', 'i', 't']
        · rw [if_pos (by simp [quitWord, heq])]
          constructor
          · intro _
            refine ⟨i, le_refl i, by omega, hclock, by simp [hk], ?_⟩
            rw [show i + 1 - i = 1 by omega]
            simp [decodedFrom, List.range', hk, heq]
          · intro _; rfl
        · rw [if_neg (by simp [quitWord, heq])]
          by_cases hpre : ('q' :: (acc ++ [k.toLower])) <+: quitWord
          · rw [if_neg (by simpa using hpre)]
            have hpre' : (acc ++ [k.toLower]) <+: ['u', 'i', 't'] := by
              have := (List.cons_prefix_cons.mp hpre).2
              simpa [quitWord] using this
            rw [show ('q' :: acc) ++ [k.toLower] = 'q' :: (acc ++ [k.toLower]) by simp]
            rw [ih (i + 1) (acc ++ [k.toLower]) hpre' heq]
            constructor
            · rintro ⟨n, h1, h2, h3, h4, h5⟩
              refine ⟨n, by omega, by omega, h3, h4, ?_⟩
              have hn : n + 1 - i = (n - i) + 1 := by omega
              rw [hn, decodedFrom_succ, hk]
              simpa [show n + 1 - (i + 1) = n - i by omega] using h5
            · rintro ⟨n, h1, h2, h3, h4, h5⟩
              have hni : i < n := by
                rcases Nat.lt_or_ge i n with h | h
                · exact h
                · have hn : n = i := by omega
                  subst hn
                  rw [show n + 1 - n = 1 by omega] at h5
                  simp [decodedFrom, List.range', hk] at h5
                  exact absurd h5 heq
              refine ⟨n, by omega, by omega, h3, h4, ?_⟩
              have hn : n + 1 - i = (n - i) + 1 := by omega
              rw [hn, decodedFrom_succ, hk] at h5
              simpa [show n + 1 - (i + 1) = n - i by omega] using h5
          · rw [if_pos (by simpa using hpre)]
            constructor
            · intro h; cases h
            · rintro ⟨n, h1, h2, h3, h4, h5⟩
              exfalso
              have hn : n + 1 - i = (n - i) + 1 := by omega
              rw [hn, decodedFrom_succ, hk] at h5
              apply hpre
              rw [show quitWord = 'q' :: ['u', 'i', 't'] from rfl, List.cons_prefix_cons]
              refine ⟨rfl, (decodedFrom keys (i + 1) (n - i)).map Char.toLower, ?_⟩
              simpa using h5
    · rw [quit_loop, if_neg (fun h => hclock h.2)]
      constructor
      · intro h; cases h
      · rintro ⟨n, h1, h2, h3, -⟩
        exact absurd (lt_of_le_of_lt (hm i n h1) h3) hclock

/-- C3.  Entered with a q/Q key, `check_for_quit` returns `true` if and
only if the subsequent decoded keys (skipping `None`s), lower-cased, are
exactly `u`, `i`, `t` in order, the third arriving at a decoder call whose
preceding deadline check still saw less than 1000 ms elapsed; with the
clock monotone this makes every earlier check pass too.  The `false` cases
of the claim (first divergent key, or deadline before the buffer reaches
length 4) are exactly the complement of the right-hand side. -/
theorem check_for_quit_iff (keys : Nat → Option Char) (clock : Nat → Nat)
    (fuel : Nat) (k : Char) (hm : ∀ a b, a ≤ b → clock a ≤ clock b)
    (hk : k.toLower = 'q') :
    (check_for_quit keys clock fuel (some k) = true ↔
      ∃ n, n < fuel ∧ clock n < 1000 ∧ (keys n).isSome ∧
        (decodedFrom keys 0 (n + 1)).map Char.toLower = ['u', 'i', 't']) := by
  have hc : check_for_quit keys clock fuel (some k) =
      quit_loop keys clock fuel 0 ['q'] := by
    simp [check_for_quit, hk]
  rw [hc]
  have h := quit_loop_true_iff keys clock hm fuel 0 [] ⟨['u', 'i', 't'], rfl⟩
    (by simp)
  simpa using h

/-- Witness for C3: typing `q,u,i,t` with clock readings `0,1,2,3` ms is
accepted. -/
theorem check_for_quit_iff_w :
    (check_for_quit
        (fun i => if i = 0 then some 'u' else if i = 1 then some 'i' else some 't')
        (fun i => i) 3 (some 'q') = true ↔
      ∃ n, n < 3 ∧ (fun i => i) n < 1000 ∧
        ((fun i => if i = 0 then some 'u' else if i = 1 then some 'i' else some 't') n).isSome ∧
        (decodedFrom
            (fun i => if i = 0 then some 'u' else if i = 1 then some 'i' else some 't')
            0 (n + 1)).map Char.toLower = ['u', 'i', 't']) :=
  check_for_quit_iff
    (fun i => if i = 0 then some 'u' else if i = 1 then some 'i' else some 't')
    (fun i => i) 3 'q' (fun _ _ h => h) (by decide)

/-! ### RequeueScheduler: `run_quiz` (flashcards.py lines 1156-1295)

The scheduler state after the deck is filtered and shuffled:
`queue` is the Python list of `(word, times_correct_needed)` pairs,
`repeats` the `repeat_words` dict (a CPython dict preserves insertion
order and updates a present key in place, embedded as an association list
with `upsert`), `position` the dequeue counter.  `jIdx` counts the
correct/incorrect judgments consumed from the stream `judge`, `rIdx` the
values consumed from the single random oracle stream `rnd` (Python's
global `random` generator).  One `sessionStepEv` is one iteration of the
`while queue:` loop when the queue is non-empty, and otherwise one full
round of the `while repeat_words:` drain loop. -/

/-- A record the program appends to `results.csv`: `save_result` writes
one per-item answer row; `save_practice_time` writes one practice-duration
measurement (as a start/end marker pair) tagged with the group
selection. -/
inductive SinkEvent where
  | answer (w : Word) (correct : Bool)
  | practiceTime (groups : List Int) (duration : Nat)
deriving DecidableEq, Repr

/-- One entry of the `repeat_words` dict:
`repeat_words[key] = (word, streak, due)` where `due` is `insert_pos`. -/
structure RepeatEntry where
  key : String
  word : Word
  streak : Nat
  due : Nat
deriving DecidableEq, Repr

structure QuizState where
  queue : List (Word × Nat)
  repeats : List RepeatEntry
  position : Nat
  correctCount : Nat
  incorrectCount : Nat
  jIdx : Nat
  rIdx : Nat
deriving DecidableEq, Repr

/-- `random.randint a b` (both bounds inclusive) driven by the raw oracle
value `r`: every value of `[a, b]` is reachable and no other. -/
def randint (r a b : Nat) : Nat := a + r % (b - a + 1)

/-- Python dict assignment `repeat_words[k] = (w, st, due)`: replace the
entry for `k` in place if present, else append. -/
def upsert (reg : List RepeatEntry) (k : String) (w : Word) (st due : Nat) :
    List RepeatEntry :=
  if reg.any (fun e => decide (e.key = k)) then
    reg.map (fun e => if e.key = k then ⟨k, w, st, due⟩ else e)
  else reg ++ [⟨k, w, st, due⟩]

/-- `for rw, streak in words_to_insert: queue.insert(random.randint(0,
min(3, len(queue))), (rw, streak))`, threading the random index. -/
def insertAll (rnd : Nat → Nat) :
    List (Word × Nat) → Nat → List (Word × Nat) → List (Word × Nat) × Nat
  | q, r, [] => (q, r)
  | q, r, e :: es =>
    insertAll rnd (q.insertIdx (randint (rnd r) 0 (min 3 q.length)) e) (r + 1) es

/-- The `for word, streak_needed in pending:` body of the drain loop
(lines 1258-1292), answering each presented item with the next judgment:
space increments `correctCount` and re-registers the word with streak
lowered by one when `streak_needed > 1`; x/X increments `incorrectCount`
and re-registers with streak 2 (`insert_pos` 0 in both cases).  Returns
the state and the `save_result` rows of the round. -/
def drainList (judge : Nat → Bool) :
    List (Word × Nat) → QuizState → QuizState × List SinkEvent
  | [], s => (s, [])
  | (w, st) :: ps, s =>
    if judge s.jIdx then
      let s' : QuizState :=
        { s with correctCount := s.correctCount + 1, jIdx := s.jIdx + 1,
                 repeats := if 1 < st then upsert s.repeats w.pinyin w (st - 1) 0
                            else s.repeats }
      let r := drainList judge ps s'
      (r.1, .answer w true :: r.2)
    else
      let s' : QuizState :=
        { s with incorrectCount := s.incorrectCount + 1, jIdx := s.jIdx + 1,
                 repeats := upsert s.repeats w.pinyin w 2 0 }
      let r := drainList judge ps s'
      (r.1, .answer w false :: r.2)

/-- One scheduler step and the `save_result` rows it writes.
Queue non-empty (lines 1195-1251): pop the front `(word, needed)`; move
every registry entry with `position >= insert_pos` into the queue at
`random.randint(0, min(3, len(queue)))`; judge the presentation: space
increments `correctCount` and, when `needed > 1`, schedules a repeat with
streak `needed - 1` due at `position + random.randint(5, 10)`; x/X
increments `incorrectCount` and schedules a repeat with streak 2 due at
`position + random.randint(5, 10)`; then `position += 1`.
Queue empty (lines 1254-1292): one round of the drain loop — snapshot the
registry as `pending`, clear it, process `pending` with `drainList`.
Terminal state (both empty): no change. -/
def sessionStepEv (rnd : Nat → Nat) (judge : Nat → Bool) (s : QuizState) :
    QuizState × List SinkEvent :=
  match s.queue with
  | (w, needed) :: rest =>
    let dueNow := s.repeats.filter (fun e => decide (e.due ≤ s.position))
    let pending := s.repeats.filter (fun e => !decide (e.due ≤ s.position))
    let qr := insertAll rnd rest s.rIdx (dueNow.map (fun e => (e.word, e.streak)))
    if judge s.jIdx then
      ({ queue := qr.1,
         repeats :=
           if 1 < needed then
             upsert pending w.pinyin w (needed - 1)
               (s.position + randint (rnd qr.2) 5 10)
           else pending,
         position := s.position + 1,
         correctCount := s.correctCount + 1,
         incorrectCount := s.incorrectCount,
         jIdx := s.jIdx + 1,
         rIdx := if 1 < needed then qr.2 + 1 else qr.2 }, [.answer w true])
    else
      ({ queue := qr.1,
         repeats := upsert pending w.pinyin w 2
           (s.position + randint (rnd qr.2) 5 10),
         position := s.position + 1,
         correctCount := s.correctCount,
         incorrectCount := s.incorrectCount + 1,
         jIdx := s.jIdx + 1,
         rIdx := qr.2 + 1 }, [.answer w false])
  | [] =>
    if s.repeats.isEmpty then (s, [])
    else drainList judge (s.repeats.map (fun e => (e.word, e.streak)))
      { s with repeats := [] }

def sessionStep (rnd : Nat → Nat) (judge : Nat → Bool) (s : QuizState) :
    QuizState :=
  (sessionStepEv rnd judge s).1

def runSteps (rnd : Nat → Nat) (judge : Nat → Bool) :
    Nat → QuizState → QuizState
  | 0, s => s
  | n + 1, s => runSteps rnd judge n (sessionStep rnd judge s)

/-- The `save_result` rows written during the first `n` steps. -/
def runEvents (rnd : Nat → Nat) (judge : Nat → Bool) :
    Nat → QuizState → List SinkEvent
  | 0, _ => []
  | n + 1, s =>
    (sessionStepEv rnd judge s).2 ++
      runEvents rnd judge n (sessionStep rnd judge s)

/-- The words presented (shown as cards) during the step taken from `s`:
the popped front of the queue when it is non-empty, the whole pending
round during a drain round, nothing at the terminal state. -/
def stepPresented (s : QuizState) : List Word :=
  match s.queue with
  | (w, _) :: _ => [w]
  | [] => if s.repeats.isEmpty then [] else s.repeats.map (fun e => e.word)

/-- `queue = [(w, 0) for w in quiz_words]` over the already shuffled,
filtered deck; empty registry; all counters zero. -/
def initState (deck : List Word) : QuizState :=
  { queue := deck.map (fun w => (w, 0)), repeats := [], position := 0,
    correctCount := 0, incorrectCount := 0, jIdx := 0, rIdx := 0 }

/-- `repeat_words.get(k)` as the first entry with key `k`. -/
def regFind (reg : List RepeatEntry) (k : String) : Option RepeatEntry :=
  reg.find? (fun e => decide (e.key = k))

/-! Concrete items for the scenario claims. -/

def wA : Word := ⟨"a", "meaningA", "1", 1, "A"⟩

def wB : Word := ⟨"b", "meaningB", "2", 1, "B"⟩

def wC : Word := ⟨"c", "meaningC", "3", 1, "C"⟩

/-- C2.  The spec's scenario over the post-shuffle order A, B, C with the
judgment stream correct, incorrect, correct, correct, correct and the
random oracle constantly 0 (so `randint(5,10) = 5`, giving B's repeat
`insert_pos = 1 + 5 = 6`): the first pass presents A, B, C in order; after
it the main queue is empty with exactly B pending (streak 2, not yet due
during the pass); the first drain round presents B and re-registers it
with streak 1; the second drain round presents B and retires it; the
session reaches the terminal state with `correctCount = 4` and
`incorrectCount = 1`. -/
theorem quiz_scenario_abc :
    (stepPresented (initState [wA, wB, wC]) = [wA] ∧
      stepPresented (runSteps (fun _ => 0) (fun i => i != 1) 1
        (initState [wA, wB, wC])) = [wB] ∧
      stepPresented (runSteps (fun _ => 0) (fun i => i != 1) 2
        (initState [wA, wB, wC])) = [wC]) ∧
    ((runSteps (fun _ => 0) (fun i => i != 1) 3
        (initState [wA, wB, wC])).queue = [] ∧
      (runSteps (fun _ => 0) (fun i => i != 1) 3
        (initState [wA, wB, wC])).repeats = [⟨"b", wB, 2, 6⟩]) ∧
    (stepPresented (runSteps (fun _ => 0) (fun i => i != 1) 3
        (initState [wA, wB, wC])) = [wB] ∧
      (runSteps (fun _ => 0) (fun i => i != 1) 4
        (initState [wA, wB, wC])).repeats = [⟨"b", wB, 1, 0⟩]) ∧
    (stepPresented (runSteps (fun _ => 0) (fun i => i != 1) 4
        (initState [wA, wB, wC])) = [wB] ∧
      (runSteps (fun _ => 0) (fun i => i != 1) 5
        (initState [wA, wB, wC])).repeats = []) ∧
    (runSteps (fun _ => 0) (fun i => i != 1) 5
        (initState [wA, wB, wC])).queue = [] ∧
    (runSteps (fun _ => 0) (fun i => i != 1) 5
        (initState [wA, wB, wC])).correctCount = 4 ∧
    (runSteps (fun _ => 0) (fun i => i != 1) 5
        (initState [wA, wB, wC])).incorrectCount = 1 := by
  decide

/-! ### Registry structure lemmas -/

/-- The key column of the registry (the dict's key view). -/
def keysOf (reg : List RepeatEntry) : List String :=
  reg.map (fun e => e.key)

lemma keysOf_upsert (reg : List RepeatEntry) (k : String) (w : Word)
    (st due : Nat) :
    keysOf (upsert reg k w st due) =
      if reg.any (fun e => decide (e.key = k)) then keysOf reg
      else keysOf reg ++ [k] := by
  unfold upsert keysOf
  split
  · rw [List.map_map]
    apply List.map_congr_left
    intro e _
    by_cases h : e.key = k <;> simp [h]
  · simp

lemma mem_upsert {reg : List RepeatEntry} {k : String} {w : Word}
    {st due : Nat} {e : RepeatEntry} (h : e ∈ upsert reg k w st due) :
    e ∈ reg ∨ e = ⟨k, w, st, due⟩ := by
  unfold upsert at h
  split at h
  · obtain ⟨a, ha, hae⟩ := List.mem_map.mp h
    by_cases hk : a.key = k
    · right; rw [if_pos hk] at hae; exact hae.symm
    · left; rw [if_neg hk] at hae; exact hae ▸ ha
  · rcases List.mem_append.mp h with h | h
    · exact Or.inl h
    · exact Or.inr (by simpa using h)

lemma mem_upsert_of_ne {reg : List RepeatEntry} {k : String} {w : Word}
    {st due : Nat} {e : RepeatEntry} (he : e ∈ reg) (hk : e.key ≠ k) :
    e ∈ upsert reg k w st due := by
  unfold upsert
  split
  · exact List.mem_map.mpr ⟨e, he, by simp [hk]⟩
  · exact List.mem_append.mpr (Or.inl he)

lemma regFind_upsert (reg : List RepeatEntry) (k : String) (w : Word)
    (st due : Nat) :
    regFind (upsert reg k w st due) k = some ⟨k, w, st, due⟩ := by
  unfold upsert regFind
  split
  · rename_i hany
    induction reg with
    | nil => simp at hany
    | cons hd tl ih =>
      by_cases hk : hd.key = k
      · simp [hk]
      · simp only [List.any_cons, Bool.or_eq_true, decide_eq_true_eq] at hany
        rcases hany with h | h
        · exact absurd h hk
        · simpa [hk] using ih h
  · rename_i hany
    induction reg with
    | nil => simp
    | cons hd tl ih =>
      simp only [List.any_cons, Bool.or_eq_true, decide_eq_true_eq,
        not_or] at hany
      simpa [List.find?, hany.1] using ih hany.2

lemma nodup_keysOf_upsert {reg : List RepeatEntry} {k : String} {w : Word}
    {st due : Nat} (h : (keysOf reg).Nodup) :
    (keysOf (upsert reg k w st due)).Nodup := by
  rw [keysOf_upsert]
  split
  · exact h
  · rename_i hany
    rw [List.nodup_append]
    refine ⟨h, List.nodup_singleton k, ?_⟩
    intro a ha hb
    simp only [List.mem_singleton] at hb
    subst hb
    obtain ⟨e, he, hek⟩ := List.mem_map.mp ha
    exact hany (List.any_eq_true.mpr ⟨e, he, by simp [hek]⟩)

lemma nodup_keysOf_filter {reg : List RepeatEntry} (p : RepeatEntry → Bool)
    (h : (keysOf reg).Nodup) : (keysOf (reg.filter p)).Nodup :=
  List.Nodup.sublist (List.Sublist.map _ (List.filter_sublist reg)) h

lemma drainList_queue (judge : Nat → Bool) :
    ∀ (ps : List (Word × Nat)) (s : QuizState),
      (drainList judge ps s).1.queue = s.queue := by
  intro ps
  induction ps with
  | nil => intro s; rfl
  | cons p ps ih =>
    intro s
    obtain ⟨w, st⟩ := p
    unfold drainList
    split <;> simpa using ih _

lemma drainList_position (judge : Nat → Bool) :
    ∀ (ps : List (Word × Nat)) (s : QuizState),
      (drainList judge ps s).1.position = s.position := by
  intro ps
  induction ps with
  | nil => intro s; rfl
  | cons p ps ih =>
    intro s
    obtain ⟨w, st⟩ := p
    unfold drainList
    split <;> simpa using ih _

lemma drainList_nodup (judge : Nat → Bool) :
    ∀ (ps : List (Word × Nat)) (s : QuizState),
      (keysOf s.repeats).Nodup →
      (keysOf (drainList judge ps s).1.repeats).Nodup := by
  intro ps
  induction ps with
  | nil => intro s h; exact h
  | cons p ps ih =>
    intro s h
    obtain ⟨w, st⟩ := p
    unfold drainList
    split
    · apply ih
      dsimp only
      split
      · exact nodup_keysOf_upsert h
      · exact h
    · exact ih _ (nodup_keysOf_upsert h)

/-- The registry keeps at most one entry per key after every step. -/
lemma regNodup_step (rnd : Nat → Nat) (judge : Nat → Bool) (s : QuizState)
    (h : (keysOf s.repeats).Nodup) :
    (keysOf (sessionStep rnd judge s).repeats).Nodup := by
  unfold sessionStep sessionStepEv
  match hq : s.queue with
  | (w, needed) :: rest =>
    dsimp only
    have hpend := nodup_keysOf_filter
      (fun e => !decide (e.due ≤ s.position)) h
    split
    · dsimp only
      split
      · exact nodup_keysOf_upsert hpend
      · exact hpend
    · exact nodup_keysOf_upsert hpend
  | [] =>
    dsimp only
    split
    · exact h
    · exact drainList_nodup judge _ _ (by simp [keysOf])

lemma regNodup_runSteps (rnd : Nat → Nat) (judge : Nat → Bool) :
    ∀ (n : Nat) (s : QuizState), (keysOf s.repeats).Nodup →
      (keysOf (runSteps rnd judge n s).repeats).Nodup := by
  intro n
  induction n with
  | zero => intro s h; exact h
  | succ n ih => intro s h; exact ih _ (regNodup_step rnd judge s h)

/-- C6.  In every reachable scheduler state the `repeat_words` registry
holds at most one entry per item identity (its key column has no
duplicates), and assigning `repeat_words[k] = (w, st, due)` makes the
entry found under `k` exactly the new one, discarding any previously
stored streak and due-position. -/
theorem registry_unique_and_overwrite :
    (∀ (deck : List Word) (rnd : Nat → Nat) (judge : Nat → Bool) (n : Nat),
        (keysOf (runSteps rnd judge n (initState deck)).repeats).Nodup) ∧
      ∀ (reg : List RepeatEntry) (k : String) (w : Word) (st due : Nat),
        regFind (upsert reg k w st due) k = some ⟨k, w, st, due⟩ := by
  constructor
  · intro deck rnd judge n
    exact regNodup_runSteps rnd judge n _ (by simp [initState, keysOf])
  · exact regFind_upsert

/-! ### Streak bounds (C10) -/

lemma randint_le_of_zero (r b : Nat) : randint r 0 b ≤ b := by
  unfold randint
  have := Nat.mod_lt r (show 0 < b - 0 + 1 by omega)
  omega

lemma randint_bounds (r a b : Nat) (h : a ≤ b) :
    a ≤ randint r a b ∧ randint r a b ≤ b := by
  unfold randint
  have := Nat.mod_lt r (show 0 < b - a + 1 by omega)
  omega

lemma mem_insertAll (rnd : Nat → Nat) :
    ∀ (es : List (Word × Nat)) (q : List (Word × Nat)) (r : Nat)
      (x : Word × Nat), x ∈ (insertAll rnd q r es).1 → x ∈ q ∨ x ∈ es := by
  intro es
  induction es with
  | nil => intro q r x h; exact Or.inl h
  | cons e es ih =>
    intro q r x h
    rcases ih _ _ x h with h' | h'
    · have hle : randint (rnd r) 0 (min 3 q.length) ≤ q.length :=
        le_trans (randint_le_of_zero _ _) (min_le_right 3 q.length)
      rcases (List.mem_insertIdx hle).mp h' with h'' | h''
      · exact Or.inr (by simp [h''])
      · exact Or.inl h''
    · exact Or.inr (List.mem_cons_of_mem e h')

/-- The streak-bound invariant: every pending repeat requires a streak of
exactly 1 or 2 further correct answers, every queue entry at most 2. -/
def StreaksOK (s : QuizState) : Prop :=
  (∀ e ∈ s.repeats, e.streak = 1 ∨ e.streak = 2) ∧ ∀ q ∈ s.queue, q.2 ≤ 2

lemma drainList_streaks (judge : Nat → Bool) :
    ∀ (ps : List (Word × Nat)) (s : QuizState),
      (∀ e ∈ s.repeats, e.streak = 1 ∨ e.streak = 2) →
      (∀ p ∈ ps, p.2 ≤ 2) →
      ∀ e ∈ (drainList judge ps s).1.repeats, e.streak = 1 ∨ e.streak = 2 := by
  intro ps
  induction ps with
  | nil => intro s hreg _; exact hreg
  | cons p ps ih =>
    intro s hreg hps
    obtain ⟨w, st⟩ := p
    have hst : st ≤ 2 := hps (w, st) (by simp)
    unfold drainList
    split
    · apply ih
      · dsimp only
        split
        · rename_i h1
          intro e he
          rcases mem_upsert he with h | h
          · exact hreg e h
          · subst h; left; dsimp only; omega
        · exact hreg
      · intro p hp; exact hps p (List.mem_cons_of_mem _ hp)
    · apply ih
      · intro e he
        rcases mem_upsert he with h | h
        · exact hreg e h
        · subst h; right; rfl
      · intro p hp; exact hps p (List.mem_cons_of_mem _ hp)

lemma streaks_step (rnd : Nat → Nat) (judge : Nat → Bool) (s : QuizState)
    (h : StreaksOK s) : StreaksOK (sessionStep rnd judge s) := by
  obtain ⟨hreg, hque⟩ := h
  unfold sessionStep sessionStepEv
  match hq : s.queue with
  | (w, needed) :: rest =>
    have hneed : needed ≤ 2 := hque (w, needed) (by rw [hq]; simp)
    have hrest : ∀ q ∈ rest, q.2 ≤ 2 := by
      intro q hqr; exact hque q (by rw [hq]; exact List.mem_cons_of_mem _ hqr)
    have hqueue' : ∀ q ∈ (insertAll rnd rest s.rIdx
        (((s.repeats.filter (fun e => decide (e.due ≤ s.position))).map
          (fun e => (e.word, e.streak))))).1, q.2 ≤ 2 := by
      intro q hqm
      rcases mem_insertAll rnd _ _ _ q hqm with h | h
      · exact hrest q h
      · obtain ⟨e, he, hee⟩ := List.mem_map.mp h
        have := hreg e (List.mem_filter.mp he).1
        rw [← hee]; dsimp only; omega
    have hpend : ∀ e ∈ s.repeats.filter (fun e => !decide (e.due ≤ s.position)),
        e.streak = 1 ∨ e.streak = 2 := by
      intro e he; exact hreg e (List.mem_filter.mp he).1
    dsimp only
    split
    · constructor
      · dsimp only
        split
        · rename_i h1
          intro e he
          rcases mem_upsert he with h | h
          · exact hpend e h
          · subst h; left; dsimp only; omega
        · exact hpend
      · exact hqueue'
    · constructor
      · intro e he
        rcases mem_upsert he with h | h
        · exact hpend e h
        · subst h; right; rfl
      · exact hqueue'
  | [] =>
    dsimp only
    split
    · exact ⟨hreg, hque⟩
    · constructor
      · apply drainList_streaks
        · intro e he; simp at he
        · intro p hp
          obtain ⟨e, he, hee⟩ := List.mem_map.mp hp
          have := hreg e he
          rw [← hee]; dsimp only; omega
      · rw [drainList_queue]; intro q hqm; exact hque q (by rw [hq]; exact hqm)

lemma streaks_runSteps (rnd : Nat → Nat) (judge : Nat → Bool) :
    ∀ (n : Nat) (s : QuizState), StreaksOK s →
      StreaksOK (runSteps rnd judge n s) := by
  intro n
  induction n with
  | zero => intro s h; exact h
  | succ n ih => intro s h; exact ih _ (streaks_step rnd judge s h)

/-- C10.  In every reachable quiz-session state every RepeatRegistry entry
carries a required streak of exactly 1 or 2 and every MainQueue entry one
of 0, 1 or 2, so no item ever needs more than two further correct answers
to retire. -/
theorem streak_bounds (deck : List Word) (rnd : Nat → Nat)
    (judge : Nat → Bool) (n : Nat) :
    (∀ e ∈ (runSteps rnd judge n (initState deck)).repeats,
        e.streak = 1 ∨ e.streak = 2) ∧
      ∀ q ∈ (runSteps rnd judge n (initState deck)).queue, q.2 ≤ 2 :=
  streaks_runSteps rnd judge n (initState deck)
    ⟨by simp [initState], by
      intro q hqm
      simp only [initState, List.mem_map] at hqm
      obtain ⟨w, -, hw⟩ := hqm
      simp [← hw]⟩

/-! ### Identity accounting (C1, C4)

`idCount p s` counts the occurrences of the item identity `p` (a pinyin)
across MainQueue and RepeatRegistry.  Every step can only consume
occurrences: the popped front either retires or is re-registered once, and
due repeats move between the two structures. -/

def queueCount (p : String) (q : List (Word × Nat)) : Nat :=
  q.countP (fun e => decide (e.1.pinyin = p))

def regCount (p : String) (reg : List RepeatEntry) : Nat :=
  reg.countP (fun e => decide (e.key = p))

def idCount (p : String) (s : QuizState) : Nat :=
  queueCount p s.queue + regCount p s.repeats

/-- Registry entries are stored under their word's pinyin
(`repeat_words[word['pinyin']] = (word, ...)`). -/
def RegCoherent (s : QuizState) : Prop :=
  ∀ e ∈ s.repeats, e.key = e.word.pinyin

/-- Item identities occur at most once across queue and registry. -/
def UniqueIds (s : QuizState) : Prop := ∀ p, idCount p s ≤ 1

lemma countP_insertIdx (p : Word × Nat → Bool) (a : Word × Nat) :
    ∀ (n : Nat) (l : List (Word × Nat)), n ≤ l.length →
      (l.insertIdx n a).countP p = (a :: l).countP p := by
  intro n
  induction n with
  | zero => intro l _; rfl
  | succ n ih =>
    intro l hl
    match l with
    | [] => simp at hl
    | hd :: tl =>
      rw [List.insertIdx_succ_cons, List.countP_cons, ih tl (by simpa using hl),
        List.countP_cons, List.countP_cons, List.countP_cons]
      omega

lemma queueCount_insertAll (rnd : Nat → Nat) (p : String) :
    ∀ (es : List (Word × Nat)) (q : List (Word × Nat)) (r : Nat),
      queueCount p (insertAll rnd q r es).1 =
        queueCount p q + es.countP (fun e => decide (e.1.pinyin = p)) := by
  intro es
  induction es with
  | nil => intro q r; simp [insertAll]
  | cons e es ih =>
    intro q r
    have hle : randint (rnd r) 0 (min 3 q.length) ≤ q.length :=
      le_trans (randint_le_of_zero _ _) (min_le_right 3 q.length)
    unfold insertAll
    rw [ih, List.countP_cons]
    unfold queueCount
    rw [countP_insertIdx _ _ _ _ hle, List.countP_cons]
    omega

lemma countP_filter_split (pr q : RepeatEntry → Bool) (l : List RepeatEntry) :
    l.countP pr = (l.filter q).countP pr + (l.filter (fun x => !q x)).countP pr := by
  induction l with
  | nil => rfl
  | cons hd tl ih =>
    by_cases h : q hd = true <;>
      simp [List.filter_cons, h, List.countP_cons, ih] <;> omega

lemma regCount_upsert_le (p : String) (reg : List RepeatEntry) (k : String)
    (w : Word) (st due : Nat) :
    regCount p (upsert reg k w st due) ≤
      regCount p reg + (if k = p then 1 else 0) := by
  unfold upsert regCount
  split
  · rw [List.countP_map]
    rw [List.countP_congr (q := fun e => decide (e.key = p)) ?_]
    · omega
    · intro e _
      by_cases h : e.key = k <;> simp [h, Function.comp]
  · rw [List.countP_append]
    simp only [List.countP_cons, List.countP_nil]
    by_cases h : k = p <;> simp [h]

lemma drainList_regCount (judge : Nat → Bool) (p : String) :
    ∀ (ps : List (Word × Nat)) (s : QuizState),
      regCount p (drainList judge ps s).1.repeats ≤
        regCount p s.repeats +
          ps.countP (fun e => decide (e.1.pinyin = p)) := by
  intro ps
  induction ps with
  | nil => intro s; simp [drainList]
  | cons e es ih =>
    intro s
    obtain ⟨w, st⟩ := e
    unfold drainList
    rw [List.countP_cons]
    split
    · dsimp only
      refine le_trans (ih _) ?_
      dsimp only
      split
      · have := regCount_upsert_le p s.repeats w.pinyin w (st - 1) 0
        by_cases h : w.pinyin = p <;> simp [h] at this ⊢ <;> omega
      · omega
    · dsimp only
      refine le_trans (ih _) ?_
      have := regCount_upsert_le p s.repeats w.pinyin w 2 0
      by_cases h : w.pinyin = p <;> simp [h] at this ⊢ <;> omega

lemma coherent_upsert {s : List RepeatEntry} (w : Word) (st due : Nat)
    (h : ∀ e ∈ s, e.key = e.word.pinyin) :
    ∀ e ∈ upsert s w.pinyin w st due, e.key = e.word.pinyin := by
  intro e he
  rcases mem_upsert he with h' | h'
  · exact h e h'
  · subst h'; rfl

lemma drainList_coherent (judge : Nat → Bool) :
    ∀ (ps : List (Word × Nat)) (s : QuizState),
      (∀ e ∈ s.repeats, e.key = e.word.pinyin) →
      ∀ e ∈ (drainList judge ps s).1.repeats, e.key = e.word.pinyin := by
  intro ps
  induction ps with
  | nil => intro s h; exact h
  | cons e es ih =>
    intro s h
    obtain ⟨w, st⟩ := e
    unfold drainList
    split
    · apply ih
      dsimp only
      split
      · exact coherent_upsert w _ _ h
      · exact h
    · exact ih _ (coherent_upsert w _ _ h)

lemma coherent_step (rnd : Nat → Nat) (judge : Nat → Bool) (s : QuizState)
    (h : RegCoherent s) : RegCoherent (sessionStep rnd judge s) := by
  unfold RegCoherent at h ⊢
  unfold sessionStep sessionStepEv
  have hpend : ∀ e ∈ s.repeats.filter (fun e => !decide (e.due ≤ s.position)),
      e.key = e.word.pinyin := fun e he => h e (List.mem_filter.mp he).1
  match hq : s.queue with
  | (w, needed) :: rest =>
    dsimp only
    split
    · dsimp only
      split
      · exact coherent_upsert w _ _ hpend
      · exact hpend
    · exact coherent_upsert w _ _ hpend
  | [] =>
    dsimp only
    split
    · exact h
    · exact drainList_coherent judge _ _ (by simp)

lemma runSteps_add (rnd : Nat → Nat) (judge : Nat → Bool) :
    ∀ (a b : Nat) (s : QuizState),
      runSteps rnd judge (a + b) s =
        runSteps rnd judge b (runSteps rnd judge a s) := by
  intro a
  induction a with
  | zero => intro b s; rw [Nat.zero_add]; rfl
  | succ a ih =>
    intro b s
    rw [show a + 1 + b = (a + b) + 1 by omega]
    show runSteps rnd judge (a + b) (sessionStep rnd judge s) = _
    rw [ih b (sessionStep rnd judge s)]
    rfl

/-- Count decomposition of one step with a non-empty queue. -/
lemma idCount_mainStep (rnd : Nat → Nat) (judge : Nat → Bool) (s : QuizState)
    (p : String) (w : Word) (needed : Nat) (rest : List (Word × Nat))
    (hcoh : RegCoherent s) (hq : s.queue = (w, needed) :: rest) :
    (idCount p (sessionStep rnd judge s) ≤ idCount p s) ∧
      (judge s.jIdx = true → ¬ 1 < needed →
        idCount p (sessionStep rnd judge s) + (if w.pinyin = p then 1 else 0) =
          idCount p s) := by
  obtain ⟨q, reps, pos, cc, ic, jI, rI⟩ := s
  simp only at hq hcoh ⊢
  subst hq
  unfold RegCoherent at hcoh
  simp only at hcoh
  have hsplit := countP_filter_split (fun e => decide (e.key = p))
    (fun e => decide (e.due ≤ pos)) reps
  have hqc : queueCount p (insertAll rnd rest rI
      ((reps.filter (fun e => decide (e.due ≤ pos))).map
        (fun e => (e.word, e.streak)))).1 =
      queueCount p rest +
        regCount p (reps.filter (fun e => decide (e.due ≤ pos))) := by
    rw [queueCount_insertAll, List.countP_map]
    congr 1
    apply List.countP_congr
    intro e he
    have := hcoh e (List.mem_filter.mp he).1
    simp [Function.comp, this]
  have hqs : queueCount p ((w, needed) :: rest) =
      (if w.pinyin = p then 1 else 0) + queueCount p rest := by
    unfold queueCount
    rw [List.countP_cons]
    by_cases h : w.pinyin = p <;> simp [h] <;> omega
  unfold sessionStep sessionStepEv idCount
  dsimp only
  constructor
  · split
    · dsimp only
      split
      · rename_i hj hneed
        have := regCount_upsert_le p
          (reps.filter (fun e => !decide (e.due ≤ pos))) w.pinyin w
          (needed - 1) (pos + randint (rnd (insertAll rnd rest rI
            ((reps.filter (fun e => decide (e.due ≤ pos))).map
              (fun e => (e.word, e.streak)))).2) 5 10)
        rw [hqs, hqc]
        unfold regCount at this ⊢
        rw [hsplit]
        omega
      · rw [hqs, hqc]
        unfold regCount
        rw [hsplit]
        omega
    · dsimp only
      have := regCount_upsert_le p
        (reps.filter (fun e => !decide (e.due ≤ pos))) w.pinyin w 2
        (pos + randint (rnd (insertAll rnd rest rI
          ((reps.filter (fun e => decide (e.due ≤ pos))).map
            (fun e => (e.word, e.streak)))).2) 5 10)
      rw [hqs, hqc]
      unfold regCount at this ⊢
      rw [hsplit]
      omega
  · intro hj hneed
    rw [if_pos hj]
    dsimp only
    rw [if_neg hneed]
    rw [hqs, hqc]
    unfold regCount
    rw [hsplit]
    omega

lemma idCount_step_le (rnd : Nat → Nat) (judge : Nat → Bool) (s : QuizState)
    (p : String) (hcoh : RegCoherent s) :
    idCount p (sessionStep rnd judge s) ≤ idCount p s := by
  match hq : s.queue with
  | (w, needed) :: rest =>
    exact (idCount_mainStep rnd judge s p w needed rest hcoh hq).1
  | [] =>
    obtain ⟨q, reps, pos, cc, ic, jI, rI⟩ := s
    simp only at hq hcoh ⊢
    subst hq
    unfold RegCoherent at hcoh
    simp only at hcoh
    unfold sessionStep sessionStepEv idCount
    dsimp only
    split
    · exact le_rfl
    · have hreg := drainList_regCount judge p
        (reps.map (fun e => (e.word, e.streak)))
        ⟨[], [], pos, cc, ic, jI, rI⟩
      have hmap : (reps.map (fun e => (e.word, e.streak))).countP
          (fun e => decide (e.1.pinyin = p)) = regCount p reps := by
        rw [List.countP_map]
        apply List.countP_congr
        intro e he
        have := hcoh e he
        simp [Function.comp, this]
      have hqueue := drainList_queue judge
        (reps.map (fun e => (e.word, e.streak))) ⟨[], [], pos, cc, ic, jI, rI⟩
      unfold queueCount
      rw [hqueue]
      simp only [List.countP_nil]
      rw [hmap] at hreg
      simpa [regCount] using hreg

lemma absent_run (rnd : Nat → Nat) (judge : Nat → Bool) (p : String) :
    ∀ (k : Nat) (s : QuizState), RegCoherent s → idCount p s = 0 →
      idCount p (runSteps rnd judge k s) = 0 ∧
        RegCoherent (runSteps rnd judge k s) := by
  intro k
  induction k with
  | zero => intro s hcoh habs; exact ⟨habs, hcoh⟩
  | succ k ih =>
    intro s hcoh habs
    exact ih _ (coherent_step rnd judge s hcoh)
      (Nat.le_zero.mp (habs ▸ idCount_step_le rnd judge s p hcoh))

lemma not_presented_of_absent (s : QuizState) (p : String)
    (hcoh : RegCoherent s) (habs : idCount p s = 0) :
    p ∉ (stepPresented s).map Word.pinyin := by
  intro hmem
  obtain ⟨w', hw', hwp⟩ := List.mem_map.mp hmem
  unfold idCount at habs
  unfold stepPresented at hw'
  cases hql : s.queue with
  | cons front rest =>
    obtain ⟨w, needed⟩ := front
    rw [hql] at hw'
    simp only [List.mem_singleton] at hw'
    subst hw'
    have : 0 < queueCount p s.queue := by
      unfold queueCount
      apply List.countP_pos_iff.mpr
      exact ⟨(w', needed), by rw [hql]; simp, by simp [hwp]⟩
    omega
  | nil =>
    rw [hql] at hw'
    dsimp only at hw'
    split at hw'
    · simp at hw'
    · obtain ⟨e, he, hew⟩ := List.mem_map.mp hw'
      have : 0 < regCount p s.repeats := by
        unfold regCount
        apply List.countP_pos_iff.mpr
        exact ⟨e, he, by simp [hcoh e he, hew, hwp]⟩
      omega

lemma uniqueIds_init (deck : List Word)
    (hnd : (deck.map Word.pinyin).Nodup) : UniqueIds (initState deck) := by
  intro p
  unfold idCount initState queueCount regCount
  dsimp only
  rw [List.countP_map, List.countP_nil]
  have hcount := List.nodup_iff_count_le_one.mp hnd p
  rw [List.count, List.countP_map] at hcount
  calc deck.countP ((fun e => decide (e.1.pinyin = p)) ∘ fun w => (w, 0)) + 0
      = deck.countP ((fun x => x == p) ∘ Word.pinyin) := by
        rw [Nat.add_zero]
        apply List.countP_congr
        intro w _
        simp [Function.comp]
    _ ≤ 1 := hcount

lemma uniqueIds_runSteps (rnd : Nat → Nat) (judge : Nat → Bool) :
    ∀ (n : Nat) (s : QuizState), RegCoherent s → UniqueIds s →
      UniqueIds (runSteps rnd judge n s) ∧
        RegCoherent (runSteps rnd judge n s) := by
  intro n
  induction n with
  | zero => intro s hcoh hu; exact ⟨hu, hcoh⟩
  | succ n ih =>
    intro s hcoh hu
    exact ih _ (coherent_step rnd judge s hcoh)
      (fun p => le_trans (idCount_step_le rnd judge s p hcoh) (hu p))

/-- C1.  If the entry dequeued at some step still carries
`times_correct_needed = 0` (its original first-pass entry) and the answer
is judged correct, then — item identities being unique within the deck —
from the next step on the item's identity occurs nowhere in MainQueue or
RepeatRegistry (`idCount = 0`) and the item is presented by no later step
of the session. -/
theorem retired_item_never_reappears (deck : List Word) (rnd : Nat → Nat)
    (judge : Nat → Bool) (hnd : (deck.map Word.pinyin).Nodup) (n : Nat)
    (w : Word) (rest : List (Word × Nat))
    (hq : (runSteps rnd judge n (initState deck)).queue = (w, 0) :: rest)
    (hj : judge (runSteps rnd judge n (initState deck)).jIdx = true)
    (m : Nat) (hm : 1 ≤ m) :
    idCount w.pinyin (runSteps rnd judge (n + m) (initState deck)) = 0 ∧
      w.pinyin ∉
        (stepPresented (runSteps rnd judge (n + m) (initState deck))).map
          Word.pinyin := by
  have hinit_coh : RegCoherent (initState deck) := by
    intro e he; simp [initState] at he
  obtain ⟨hu, hcoh⟩ := uniqueIds_runSteps rnd judge n (initState deck)
    hinit_coh (uniqueIds_init deck hnd)
  set s := runSteps rnd judge n (initState deck) with hs
  have hretire := (idCount_mainStep rnd judge s w.pinyin w 0 rest hcoh hq).2
    hj (by omega)
  rw [if_pos rfl] at hretire
  have habs1 : idCount w.pinyin (sessionStep rnd judge s) = 0 := by
    have := hu w.pinyin
    omega
  have hcoh1 : RegCoherent (sessionStep rnd judge s) :=
    coherent_step rnd judge s hcoh
  obtain ⟨m', rfl⟩ : ∃ m', m = 1 + m' := ⟨m - 1, by omega⟩
  have hrun : runSteps rnd judge (n + (1 + m')) (initState deck) =
      runSteps rnd judge m' (sessionStep rnd judge s) := by
    rw [show n + (1 + m') = (n + 1) + m' by omega, runSteps_add,
      runSteps_add, ← hs]
    rfl
  rw [hrun]
  obtain ⟨habs, hcohm⟩ := absent_run rnd judge w.pinyin m'
    (sessionStep rnd judge s) hcoh1 habs1
  exact ⟨habs, not_presented_of_absent _ _ hcohm habs⟩

/-- Witness for C1: a one-item deck judged correct at the first step;
after the retiring step (n = 0, m = 1) the item is gone and nothing is
presented. -/
theorem retired_item_never_reappears_w :
    idCount wA.pinyin
        (runSteps (fun _ => 0) (fun _ => true) (0 + 1) (initState [wA])) = 0 ∧
      wA.pinyin ∉
        (stepPresented (runSteps (fun _ => 0) (fun _ => true) (0 + 1)
          (initState [wA]))).map Word.pinyin :=
  retired_item_never_reappears [wA] (fun _ => 0) (fun _ => true) (by decide)
    0 wA [] rfl rfl 1 (by decide)

/-! ### Bounded reappearance (C4)

The due-position really is drawn from `[p+5, p+10]`, and while the main
queue is being processed the item cannot be presented before its due
position.  The drain phase however ignores `insert_pos` entirely (lines
1254-1258 read only `(w, streak)` out of the registry), so the session-wide
claim fails: see `premature_drain_presentation`. -/

/-- After an incorrect answer, either the dequeue counter has already
reached `d`, or the item identity `p` sits only in the registry with a due
position at least `d`. -/
def Guard (p : String) (d : Nat) (s : QuizState) : Prop :=
  d ≤ s.position ∨
    (queueCount p s.queue = 0 ∧ ∃ e ∈ s.repeats, e.key = p ∧ d ≤ e.due)

lemma queue_empty_step (rnd : Nat → Nat) (judge : Nat → Bool) (s : QuizState)
    (hq : s.queue = []) : (sessionStep rnd judge s).queue = [] := by
  obtain ⟨q, reps, pos, cc, ic, jI, rI⟩ := s
  simp only at hq
  subst hq
  unfold sessionStep sessionStepEv
  dsimp only
  split
  · rfl
  · exact drainList_queue judge _ _

lemma regCount_filter_zero {p : String} {reps : List RepeatEntry}
    (pr : RepeatEntry → Bool) (h : regCount p reps = 0) :
    regCount p (reps.filter pr) = 0 := by
  have := countP_filter_split (fun e => decide (e.key = p)) pr reps
  unfold regCount at h ⊢
  omega

lemma guard_mainStep (rnd : Nat → Nat) (judge : Nat → Bool) (s : QuizState)
    (p : String) (d : Nat) (w : Word) (needed : Nat) (rest : List (Word × Nat))
    (hu : UniqueIds s) (hcoh : RegCoherent s) (hG : Guard p d s)
    (hq : s.queue = (w, needed) :: rest) :
    Guard p d (sessionStep rnd judge s) := by
  have hqc : queueCount p (insertAll rnd rest s.rIdx
      ((s.repeats.filter (fun e => decide (e.due ≤ s.position))).map
        (fun e => (e.word, e.streak)))).1 = queueCount p rest +
        regCount p (s.repeats.filter (fun e => decide (e.due ≤ s.position))) := by
    rw [queueCount_insertAll, List.countP_map]
    congr 1
    apply List.countP_congr
    intro e he
    have := hcoh e (List.mem_filter.mp he).1
    simp [Function.comp, this]
  rcases hG with hG | ⟨hqcount, e, he, hek, hdue⟩
  · left
    obtain ⟨q, reps, pos, cc, ic, jI, rI⟩ := s
    simp only at hq hG ⊢
    subst hq
    unfold sessionStep sessionStepEv
    dsimp only
    split
    · dsimp only; omega
    · dsimp only; omega
  · have hwp : ¬ (w.pinyin = p) := by
      intro hwp
      have : 0 < queueCount p s.queue := by
        unfold queueCount
        apply List.countP_pos_iff.mpr
        exact ⟨(w, needed), by rw [hq]; simp, by simp [hwp]⟩
      omega
    have hqrest : queueCount p rest = 0 := by
      have : queueCount p s.queue = queueCount p rest +
          (if w.pinyin = p then 1 else 0) := by
        rw [hq]
        unfold queueCount
        rw [List.countP_cons]
        by_cases h : w.pinyin = p <;> simp [h]
      rw [if_neg hwp] at this
      omega
    by_cases hdn : e.due ≤ s.position
    · left
      have hds : d ≤ s.position := le_trans hdue hdn
      obtain ⟨q, reps, pos, cc, ic, jI, rI⟩ := s
      simp only at hq hds ⊢
      subst hq
      unfold sessionStep sessionStepEv
      dsimp only
      split
      · dsimp only; omega
      · dsimp only; omega
    · right
      have hepend : e ∈ s.repeats.filter (fun x => !decide (x.due ≤ s.position)) :=
        List.mem_filter.mpr ⟨he, by simp [hdn]⟩
      have hregpend : 0 < regCount p
          (s.repeats.filter (fun x => !decide (x.due ≤ s.position))) := by
        unfold regCount
        apply List.countP_pos_iff.mpr
        exact ⟨e, hepend, by simp [hek]⟩
      have hregsplit := countP_filter_split (fun x => decide (x.key = p))
        (fun x => decide (x.due ≤ s.position)) s.repeats
      have hregtot : regCount p s.repeats ≤ 1 := by
        have := hu p
        unfold idCount at this
        omega
      have hregdue : regCount p
          (s.repeats.filter (fun x => decide (x.due ≤ s.position))) = 0 := by
        unfold regCount at hregpend hregtot ⊢
        omega
      have hq0 : queueCount p (insertAll rnd rest s.rIdx
          ((s.repeats.filter (fun x => decide (x.due ≤ s.position))).map
            (fun x => (x.word, x.streak)))).1 = 0 := by
        rw [hqc, hqrest, hregdue]
      have hne : e.key ≠ w.pinyin := by rw [hek]; exact fun h => hwp h.symm
      obtain ⟨q, reps, pos, cc, ic, jI, rI⟩ := s
      simp only at hq hq0 hepend hne hdue hek ⊢
      subst hq
      unfold sessionStep sessionStepEv
      dsimp only
      split
      · dsimp only
        refine ⟨hq0, ?_⟩
        split
        · exact ⟨e, mem_upsert_of_ne hepend hne, hek, hdue⟩
        · exact ⟨e, hepend, hek, hdue⟩
      · exact ⟨hq0, e, mem_upsert_of_ne hepend hne, hek, hdue⟩

lemma position_step_le (rnd : Nat → Nat) (judge : Nat → Bool) (s : QuizState) :
    s.position ≤ (sessionStep rnd judge s).position := by
  obtain ⟨q, reps, pos, cc, ic, jI, rI⟩ := s
  unfold sessionStep sessionStepEv
  match q with
  | (w, needed) :: rest =>
    dsimp only
    split
    · dsimp only; omega
    · dsimp only; omega
  | [] =>
    dsimp only
    split
    · exact le_rfl
    · rw [drainList_position]

lemma guard_run (rnd : Nat → Nat) (judge : Nat → Bool) (p : String) (d : Nat) :
    ∀ (k : Nat) (s : QuizState), UniqueIds s → RegCoherent s →
      (Guard p d s ∨ s.queue = []) →
      (Guard p d (runSteps rnd judge k s) ∨
        (runSteps rnd judge k s).queue = []) := by
  intro k
  induction k with
  | zero => intro s _ _ h; exact h
  | succ k ih =>
    intro s hu hcoh h
    have hu' : UniqueIds (sessionStep rnd judge s) :=
      fun x => le_trans (idCount_step_le rnd judge s x hcoh) (hu x)
    have hcoh' := coherent_step rnd judge s hcoh
    rcases h with hG | hqe
    · match hq : s.queue with
      | front :: rest =>
        obtain ⟨w, needed⟩ := front
        exact ih _ hu' hcoh'
          (Or.inl (guard_mainStep rnd judge s p d w needed rest hu hcoh hG hq))
      | [] => exact ih _ hu' hcoh' (Or.inr (queue_empty_step rnd judge s hq))
    · exact ih _ hu' hcoh' (Or.inr (queue_empty_step rnd judge s hqe))

/-- The freshly scheduled repeat of an incorrect answer, and the guard it
establishes. -/
lemma incorrect_step_facts (rnd : Nat → Nat) (judge : Nat → Bool)
    (s : QuizState) (w : Word) (needed : Nat) (rest : List (Word × Nat))
    (hu : UniqueIds s) (hcoh : RegCoherent s)
    (hq : s.queue = (w, needed) :: rest) (hj : judge s.jIdx = false) :
    ∃ d, regFind (sessionStep rnd judge s).repeats w.pinyin =
        some ⟨w.pinyin, w, 2, d⟩ ∧
      s.position + 5 ≤ d ∧ d ≤ s.position + 10 ∧
      Guard w.pinyin d (sessionStep rnd judge s) := by
  have hqw : 0 < queueCount w.pinyin s.queue := by
    unfold queueCount
    apply List.countP_pos_iff.mpr
    exact ⟨(w, needed), by rw [hq]; simp, by simp⟩
  have hureg : regCount w.pinyin s.repeats = 0 := by
    have := hu w.pinyin
    unfold idCount at this
    omega
  have hqrest : queueCount w.pinyin rest = 0 := by
    have hcount : queueCount w.pinyin s.queue = queueCount w.pinyin rest + 1 := by
      rw [hq]
      unfold queueCount
      rw [List.countP_cons]
      simp
    have := hu w.pinyin
    unfold idCount at this
    omega
  have hq0 : queueCount w.pinyin (insertAll rnd rest s.rIdx
      ((s.repeats.filter (fun e => decide (e.due ≤ s.position))).map
        (fun e => (e.word, e.streak)))).1 = 0 := by
    rw [queueCount_insertAll, List.countP_map]
    have hmapz : (s.repeats.filter (fun e => decide (e.due ≤ s.position))).countP
        ((fun e => decide (e.1.pinyin = w.pinyin)) ∘
          (fun e => (e.word, e.streak))) =
        regCount w.pinyin
          (s.repeats.filter (fun e => decide (e.due ≤ s.position))) := by
      apply List.countP_congr
      intro e he
      have := hcoh e (List.mem_filter.mp he).1
      simp [Function.comp, this]
    rw [hmapz, regCount_filter_zero _ hureg, hqrest]
  obtain ⟨q, reps, pos, cc, ic, jI, rI⟩ := s
  simp only at hq hj hureg hqrest hq0 ⊢
  subst hq
  have hstep : sessionStep rnd judge ⟨(w, needed) :: rest, reps, pos, cc, ic, jI, rI⟩ =
      { queue := (insertAll rnd rest rI
          ((reps.filter (fun e => decide (e.due ≤ pos))).map
            (fun e => (e.word, e.streak)))).1,
        repeats := upsert (reps.filter (fun e => !decide (e.due ≤ pos)))
          w.pinyin w 2
          (pos + randint (rnd (insertAll rnd rest rI
            ((reps.filter (fun e => decide (e.due ≤ pos))).map
              (fun e => (e.word, e.streak)))).2) 5 10),
        position := pos + 1, correctCount := cc, incorrectCount := ic + 1,
        jIdx := jI + 1,
        rIdx := (insertAll rnd rest rI
          ((reps.filter (fun e => decide (e.due ≤ pos))).map
            (fun e => (e.word, e.streak)))).2 + 1 } := by
    unfold sessionStep sessionStepEv
    dsimp only
    rw [if_neg (by simp [hj])]
  rw [hstep]
  have hrand := randint_bounds (rnd (insertAll rnd rest rI
    ((reps.filter (fun e => decide (e.due ≤ pos))).map
      (fun e => (e.word, e.streak)))).2) 5 10 (by omega)
  refine ⟨pos + randint (rnd (insertAll rnd rest rI
    ((reps.filter (fun e => decide (e.due ≤ pos))).map
      (fun e => (e.word, e.streak)))).2) 5 10,
    regFind_upsert _ _ _ _ _, by omega, by omega, ?_⟩
  right
  refine ⟨hq0, ⟨w.pinyin, w, 2, _⟩,
    List.mem_of_find?_eq_some (regFind_upsert _ _ _ _ _), rfl, le_rfl⟩

/-- C4 (amended).  When the front entry `(w, needed)` is judged incorrect
at dequue counter `p₀ = position`, the registry records its repeat under
`w.pinyin` with streak 2 and a due position `d ∈ [p₀ + 5, p₀ + 10]`
(uniform `randint(5, 10)` offset), and at every later step at which the
main queue is still non-empty and `w` is again at its front (about to be
presented), the dequeue counter has reached at least `d`.  The drain phase
is excluded: it ignores due positions (see
`premature_drain_presentation`). -/
theorem incorrect_item_due_bounds (deck : List Word) (rnd : Nat → Nat)
    (judge : Nat → Bool) (hnd : (deck.map Word.pinyin).Nodup) (n : Nat)
    (w : Word) (needed : Nat) (rest : List (Word × Nat))
    (hq : (runSteps rnd judge n (initState deck)).queue = (w, needed) :: rest)
    (hj : judge ((runSteps rnd judge n (initState deck)).jIdx) = false) :
    ∃ d, regFind (runSteps rnd judge (n + 1) (initState deck)).repeats
        w.pinyin = some ⟨w.pinyin, w, 2, d⟩ ∧
      (runSteps rnd judge n (initState deck)).position + 5 ≤ d ∧
      d ≤ (runSteps rnd judge n (initState deck)).position + 10 ∧
      ∀ m, 1 ≤ m → ∀ (w' : Word) (n' : Nat) (rest' : List (Word × Nat)),
        (runSteps rnd judge (n + m) (initState deck)).queue =
          (w', n') :: rest' →
        w'.pinyin = w.pinyin →
        d ≤ (runSteps rnd judge (n + m) (initState deck)).position := by
  have hinit_coh : RegCoherent (initState deck) := by
    intro e he; simp [initState] at he
  obtain ⟨hu, hcoh⟩ := uniqueIds_runSteps rnd judge n (initState deck)
    hinit_coh (uniqueIds_init deck hnd)
  set s := runSteps rnd judge n (initState deck) with hs
  obtain ⟨d, hfind, h5, h10, hguard⟩ :=
    incorrect_step_facts rnd judge s w needed rest hu hcoh hq hj
  have hstep1 : runSteps rnd judge (n + 1) (initState deck) =
      sessionStep rnd judge s := by
    rw [runSteps_add, ← hs]; rfl
  refine ⟨d, by rw [hstep1]; exact hfind, h5, h10, ?_⟩
  intro m hm w' n' rest' hq' hwp'
  have hu' : UniqueIds (sessionStep rnd judge s) :=
    fun x => le_trans (idCount_step_le rnd judge s x hcoh) (hu x)
  have hcoh' := coherent_step rnd judge s hcoh
  obtain ⟨m', rfl⟩ : ∃ m', m = 1 + m' := ⟨m - 1, by omega⟩
  have hrun : runSteps rnd judge (n + (1 + m')) (initState deck) =
      runSteps rnd judge m' (sessionStep rnd judge s) := by
    rw [show n + (1 + m') = (n + 1) + m' by omega, runSteps_add, hstep1]
  rw [hrun] at hq' ⊢
  rcases guard_run rnd judge w.pinyin d m' (sessionStep rnd judge s) hu' hcoh'
      (Or.inl hguard) with hG | hqe
  · rcases hG with hle | ⟨hqc0, -⟩
    · exact hle
    · exfalso
      have : 0 < queueCount w.pinyin
          (runSteps rnd judge m' (sessionStep rnd judge s)).queue := by
        unfold queueCount
        apply List.countP_pos_iff.mpr
        exact ⟨(w', n'), by rw [hq']; simp, by simp [hwp']⟩
      omega
  · rw [hqe] at hq'; cases hq'

/-- Witness for C4 (amended): a one-item deck judged incorrect at the
first presentation. -/
theorem incorrect_item_due_bounds_w :
    ∃ d, regFind (runSteps (fun _ => 0) (fun _ => false) (0 + 1)
        (initState [wA])).repeats wA.pinyin = some ⟨wA.pinyin, wA, 2, d⟩ ∧
      (runSteps (fun _ => 0) (fun _ => false) 0 (initState [wA])).position + 5 ≤ d ∧
      d ≤ (runSteps (fun _ => 0) (fun _ => false) 0 (initState [wA])).position + 10 ∧
      ∀ m, 1 ≤ m → ∀ (w' : Word) (n' : Nat) (rest' : List (Word × Nat)),
        (runSteps (fun _ => 0) (fun _ => false) (0 + m)
          (initState [wA])).queue = (w', n') :: rest' →
        w'.pinyin = wA.pinyin →
        d ≤ (runSteps (fun _ => 0) (fun _ => false) (0 + m)
          (initState [wA])).position :=
  incorrect_item_due_bounds [wA] (fun _ => 0) (fun _ => false) (by decide)
    0 wA 0 [] rfl rfl

/-- C4 counterexample, as the claim is stated over the whole session: in a
one-item session where `wA` is judged incorrect at dequeue position 0, its
repeat is recorded with `dueAtPosition = 5 ∈ [0+5, 0+10]`, yet the very
next step (the drain phase, which ignores due positions) presents `wA`
again while the dequeue counter stands at `1 < 5`. -/
theorem premature_drain_presentation :
    (runSteps (fun _ => 0) (fun i => i != 0) 1 (initState [wA])).repeats =
        [⟨"a", wA, 2, 5⟩] ∧
      stepPresented (runSteps (fun _ => 0) (fun i => i != 0) 1
        (initState [wA])) = [wA] ∧
      (runSteps (fun _ => 0) (fun i => i != 0) 1 (initState [wA])).position = 1 ∧
      (1 : Nat) < 5 := by
  decide

/-! ### Drain-phase termination (C7)

The drain loop `while repeat_words:` runs one round per `sessionStep` once
the queue is empty.  Against an adversarial judgment stream that answers
incorrectly forever it never terminates (`drain_may_not_terminate`); once
the judgments are eventually all correct it empties the registry, because
each all-correct round strictly decreases the total remaining streak. -/

def sumStreaks (reg : List RepeatEntry) : Nat :=
  (reg.map (fun e => e.streak)).sum

lemma sumStreaks_upsert_le (reg : List RepeatEntry) (k : String) (w : Word)
    (st due : Nat) (hnd : (keysOf reg).Nodup) :
    sumStreaks (upsert reg k w st due) ≤ sumStreaks reg + st := by
  unfold upsert
  split
  · clear * - hnd
    induction reg with
    | nil => simp [sumStreaks]
    | cons hd tl ih =>
      have hnd' : (keysOf tl).Nodup := (List.nodup_cons.mp hnd).2
      have hhd : hd.key ∉ keysOf tl := (List.nodup_cons.mp hnd).1
      by_cases h : hd.key = k
      · have htl : tl.map (fun e =>
            if e.key = k then (⟨k, w, st, due⟩ : RepeatEntry) else e) = tl := by
          have hpt : ∀ e ∈ tl, (if e.key = k then (⟨k, w, st, due⟩ : RepeatEntry)
              else e) = e := by
            intro e he
            rw [if_neg]
            intro hek
            apply hhd
            have hkey : hd.key = e.key := by rw [h, hek]
            rw [hkey]
            exact List.mem_map.mpr ⟨e, he, rfl⟩
          rw [List.map_congr_left hpt]
          simp
        unfold sumStreaks
        simp only [List.map_cons, List.sum_cons, if_pos h, htl]
        omega
      · have := ih hnd'
        unfold sumStreaks at this ⊢
        simp only [List.map_cons, List.sum_cons, if_neg h]
        omega
  · unfold sumStreaks
    simp

lemma drainList_jIdx (judge : Nat → Bool) :
    ∀ (ps : List (Word × Nat)) (s : QuizState),
      (drainList judge ps s).1.jIdx = s.jIdx + ps.length := by
  intro ps
  induction ps with
  | nil => intro s; simp [drainList]
  | cons p ps ih =>
    intro s
    obtain ⟨w, st⟩ := p
    unfold drainList
    split
    · dsimp only
      rw [ih]
      simp only [List.length_cons]
      omega
    · dsimp only
      rw [ih]
      simp only [List.length_cons]
      omega

lemma drainList_sum_all_correct (judge : Nat → Bool) :
    ∀ (ps : List (Word × Nat)) (s : QuizState), (keysOf s.repeats).Nodup →
      (∀ i, s.jIdx ≤ i → judge i = true) →
      sumStreaks (drainList judge ps s).1.repeats ≤
        sumStreaks s.repeats + (ps.map (fun p => p.2 - 1)).sum := by
  intro ps
  induction ps with
  | nil => intro s _ _; simp [drainList]
  | cons p ps ih =>
    intro s hnd hall
    obtain ⟨w, st⟩ := p
    obtain ⟨q, reps, pos, cc, ic, jI, rI⟩ := s
    simp only at hnd hall ⊢
    unfold drainList
    rw [if_pos (hall jI le_rfl)]
    dsimp only
    have hih := ih ⟨q, (if 1 < st then upsert reps w.pinyin w (st - 1) 0
        else reps), pos, cc + 1, ic, jI + 1, rI⟩
      (by dsimp only
          split
          · exact nodup_keysOf_upsert hnd
          · exact hnd)
      (by intro i hi
          dsimp only at hi
          exact hall i (by omega))
    dsimp only at hih
    refine le_trans hih ?_
    simp only [List.map_cons, List.sum_cons]
    split
    · have := sumStreaks_upsert_le reps w.pinyin w (st - 1) 0 hnd
      omega
    · omega

lemma sum_pred_lt (reps : List RepeatEntry) (hne : reps ≠ [])
    (hpos : ∀ e ∈ reps, 1 ≤ e.streak) :
    (reps.map (fun e => e.streak - 1)).sum <
      (reps.map (fun e => e.streak)).sum := by
  induction reps with
  | nil => exact absurd rfl hne
  | cons hd tl ih =>
    have hhd := hpos hd (by simp)
    by_cases htl : tl = []
    · subst htl
      simp only [List.map_cons, List.map_nil, List.sum_cons, List.sum_nil]
      omega
    · have := ih htl (fun e he => hpos e (by simp [he]))
      simp only [List.map_cons, List.sum_cons]
      omega

lemma drain_round_decrease (rnd : Nat → Nat) (judge : Nat → Bool)
    (s : QuizState) (hq : s.queue = []) (hne : s.repeats ≠ [])
    (hpos : ∀ e ∈ s.repeats, 1 ≤ e.streak)
    (hall : ∀ i, s.jIdx ≤ i → judge i = true) :
    sumStreaks (sessionStep rnd judge s).repeats < sumStreaks s.repeats := by
  obtain ⟨q, reps, pos, cc, ic, jI, rI⟩ := s
  simp only at hq hne hpos hall ⊢
  subst hq
  unfold sessionStep sessionStepEv
  dsimp only
  rw [if_neg (by simpa using hne)]
  have hrd := drainList_sum_all_correct judge
    (reps.map (fun e => (e.word, e.streak))) ⟨[], [], pos, cc, ic, jI, rI⟩
    (by simp [keysOf]) (by intro i hi; exact hall i (by simpa using hi))
  refine lt_of_le_of_lt hrd ?_
  have hmm : ((reps.map (fun e => (e.word, e.streak))).map
      (fun p => p.2 - 1)).sum = (reps.map (fun e => e.streak - 1)).sum := by
    rw [List.map_map]
    rfl
  have hlt := sum_pred_lt reps hne hpos
  dsimp only
  rw [hmm]
  unfold sumStreaks
  simp only [List.map_nil, List.sum_nil]
  omega

lemma queue_empty_run (rnd : Nat → Nat) (judge : Nat → Bool) :
    ∀ (k : Nat) (s : QuizState), s.queue = [] →
      (runSteps rnd judge k s).queue = [] := by
  intro k
  induction k with
  | zero => intro s h; exact h
  | succ k ih => intro s h; exact ih _ (queue_empty_step rnd judge s h)

lemma jIdx_drain_ge (rnd : Nat → Nat) (judge : Nat → Bool) (s : QuizState)
    (hq : s.queue = []) (hne : s.repeats ≠ []) :
    s.jIdx + 1 ≤ (sessionStep rnd judge s).jIdx := by
  obtain ⟨q, reps, pos, cc, ic, jI, rI⟩ := s
  simp only at hq hne ⊢
  subst hq
  unfold sessionStep sessionStepEv
  dsimp only
  rw [if_neg (by simpa using hne)]
  rw [drainList_jIdx]
  have : 0 < reps.length := List.length_pos.mpr hne
  show jI + 1 ≤ jI + (List.map (fun e => (e.word, e.streak)) reps).length
  rw [List.length_map]
  omega

lemma jIdx_step_ge (rnd : Nat → Nat) (judge : Nat → Bool) (s : QuizState) :
    s.jIdx ≤ (sessionStep rnd judge s).jIdx := by
  obtain ⟨q, reps, pos, cc, ic, jI, rI⟩ := s
  unfold sessionStep sessionStepEv
  match q with
  | (w, needed) :: rest =>
    dsimp only
    split <;> dsimp only <;> omega
  | [] =>
    dsimp only
    split
    · exact le_rfl
    · rw [drainList_jIdx]
      show jI ≤ jI + (List.map (fun e => (e.word, e.streak)) reps).length
      omega

lemma drain_terminates_all_correct (rnd : Nat → Nat) (judge : Nat → Bool) :
    ∀ (B : Nat) (s : QuizState), sumStreaks s.repeats ≤ B → s.queue = [] →
      StreaksOK s → (∀ i, s.jIdx ≤ i → judge i = true) →
      ∃ nn, (runSteps rnd judge nn s).repeats = [] := by
  intro B
  induction B with
  | zero =>
    intro s hB hq hok hall
    refine ⟨0, ?_⟩
    by_contra hne
    have h1 : 1 ≤ sumStreaks (runSteps rnd judge 0 s).repeats := by
      show 1 ≤ sumStreaks s.repeats
      match hr : s.repeats with
      | [] => exact absurd (by show s.repeats = []; rw [hr]) (by
          simpa [runSteps] using hne)
      | e :: tl =>
        have := hok.1 e (by rw [hr]; simp)
        unfold sumStreaks
        simp only [List.map_cons, List.sum_cons]
        omega
    simp only [runSteps] at h1
    omega
  | succ B ih =>
    intro s hB hq hok hall
    match hr : s.repeats with
    | [] => exact ⟨0, hr⟩
    | e :: tl =>
      have hne : s.repeats ≠ [] := by rw [hr]; simp
      have hpos : ∀ x ∈ s.repeats, 1 ≤ x.streak := by
        intro x hx
        have := hok.1 x hx
        omega
      have hdec := drain_round_decrease rnd judge s hq hne hpos hall
      obtain ⟨nn, hnn⟩ := ih (sessionStep rnd judge s)
        (by omega) (queue_empty_step rnd judge s hq)
        (streaks_step rnd judge s hok)
        (fun i hi => hall i (le_trans (jIdx_step_ge rnd judge s) hi))
      exact ⟨nn + 1, hnn⟩

lemma drain_terminates_eventually (rnd : Nat → Nat) (judge : Nat → Bool)
    (K : Nat) (hallK : ∀ i, K ≤ i → judge i = true) :
    ∀ (t : Nat) (s : QuizState), K ≤ s.jIdx + t → s.queue = [] →
      StreaksOK s → ∃ nn, (runSteps rnd judge nn s).repeats = [] := by
  intro t
  induction t with
  | zero =>
    intro s hK hq hok
    exact drain_terminates_all_correct rnd judge (sumStreaks s.repeats) s
      le_rfl hq hok (fun i hi => hallK i (by omega))
  | succ t ih =>
    intro s hK hq hok
    match hr : s.repeats with
    | [] => exact ⟨0, hr⟩
    | e :: tl =>
      have hne : s.repeats ≠ [] := by rw [hr]; simp
      have hj := jIdx_drain_ge rnd judge s hq hne
      obtain ⟨nn, hnn⟩ := ih (sessionStep rnd judge s)
        (by omega) (queue_empty_step rnd judge s hq)
        (streaks_step rnd judge s hok)
      exact ⟨nn + 1, hnn⟩

/-- C7 (amended).  The drain phase terminates for every judgment stream
that is eventually all-correct: from any state with an empty main queue
and registry streaks in {1, 2} (every reachable drain-phase state,
`streak_bounds`), if all judgments from index `K` on are correct then
finitely many rounds empty the registry and the session reaches the
terminal state.  An adversarial stream with infinitely many incorrect
answers defeats this (`drain_may_not_terminate`), so the unconditional
claim fails. -/
theorem drain_phase_terminates (rnd : Nat → Nat) (judge : Nat → Bool)
    (K : Nat) (hallK : ∀ i, K ≤ i → judge i = true) (s : QuizState)
    (hq : s.queue = []) (hok : StreaksOK s) :
    ∃ nn, (runSteps rnd judge nn s).repeats = [] ∧
      (runSteps rnd judge nn s).queue = [] := by
  obtain ⟨nn, hnn⟩ := drain_terminates_eventually rnd judge K hallK K s
    (by omega) hq hok
  exact ⟨nn, hnn, queue_empty_run rnd judge nn s hq⟩

/-- Witness for C7 (amended): one pending repeat, all judgments correct. -/
theorem drain_phase_terminates_w :
    ∃ nn, (runSteps (fun _ => 0) (fun _ => true) nn
        ⟨[], [⟨"a", wA, 2, 0⟩], 1, 0, 1, 1, 1⟩).repeats = [] ∧
      (runSteps (fun _ => 0) (fun _ => true) nn
        ⟨[], [⟨"a", wA, 2, 0⟩], 1, 0, 1, 1, 1⟩).queue = [] :=
  drain_phase_terminates (fun _ => 0) (fun _ => true) 0 (fun _ _ => rfl)
    ⟨[], [⟨"a", wA, 2, 0⟩], 1, 0, 1, 1, 1⟩ rfl
    ⟨by decide, by decide⟩

lemma upsert_ne_nil (reg : List RepeatEntry) (k : String) (w : Word)
    (st due : Nat) : upsert reg k w st due ≠ [] := by
  unfold upsert
  split
  · rename_i hany
    obtain ⟨e, he, -⟩ := List.any_eq_true.mp hany
    intro hmap
    rw [List.map_eq_nil_iff] at hmap
    rw [hmap] at he
    cases he
  · simp

lemma drainList_false_ne (judge : Nat → Bool)
    (hfalse : ∀ i, judge i = false) :
    ∀ (ps : List (Word × Nat)) (s : QuizState),
      (s.repeats ≠ [] ∨ ps ≠ []) → (drainList judge ps s).1.repeats ≠ [] := by
  intro ps
  induction ps with
  | nil =>
    intro s h
    rcases h with h | h
    · exact h
    · exact absurd rfl h
  | cons p ps ih =>
    intro s _
    obtain ⟨w, st⟩ := p
    unfold drainList
    rw [if_neg (by simp [hfalse])]
    dsimp only
    exact ih _ (Or.inl (upsert_ne_nil _ _ _ _ _))

lemma drain_stuck (rnd : Nat → Nat) :
    ∀ (nn : Nat) (s : QuizState), s.queue = [] → s.repeats ≠ [] →
      (runSteps rnd (fun _ => false) nn s).repeats ≠ [] := by
  intro nn
  induction nn with
  | zero => intro s _ h; exact h
  | succ nn ih =>
    intro s hq hne
    apply ih
    · exact queue_empty_step rnd (fun _ => false) s hq
    · obtain ⟨q, reps, pos, cc, ic, jI, rI⟩ := s
      simp only at hq hne ⊢
      subst hq
      unfold sessionStep sessionStepEv
      dsimp only
      rw [if_neg (by simpa using hne)]
      apply drainList_false_ne (fun _ => false) (fun _ => rfl)
      right
      simpa using hne

/-- C7 counterexample.  The claim quantifies over every judgment sequence,
but with the stream that answers incorrectly forever the session over the
one-item deck `[wA]` never reaches an empty registry: after the first
(incorrect) answer the queue is empty, and every drain round re-registers
the item with streak 2. -/
theorem drain_may_not_terminate :
    ¬ (∀ (deck : List Word) (rnd : Nat → Nat) (judge : Nat → Bool), ∃ n,
        (runSteps rnd judge n (initState deck)).queue = [] ∧
          (runSteps rnd judge n (initState deck)).repeats = []) := by
  intro h
  obtain ⟨n, hqn, hrn⟩ := h [wA] (fun _ => 0) (fun _ => false)
  match n with
  | 0 => exact absurd hqn (by decide)
  | m + 1 =>
    have hstep : sessionStep (fun _ => 0) (fun _ => false) (initState [wA]) =
        ⟨[], [⟨"a", wA, 2, 5⟩], 1, 0, 1, 1, 1⟩ := by decide
    have : runSteps (fun _ => 0) (fun _ => false) (m + 1) (initState [wA]) =
        runSteps (fun _ => 0) (fun _ => false) m
          ⟨[], [⟨"a", wA, 2, 5⟩], 1, 0, 1, 1, 1⟩ := by
      show runSteps (fun _ => 0) (fun _ => false) m
        (sessionStep (fun _ => 0) (fun _ => false) (initState [wA])) = _
      rw [hstep]
    rw [this] at hrn
    exact drain_stuck (fun _ => 0) m ⟨[], [⟨"a", wA, 2, 5⟩], 1, 0, 1, 1, 1⟩
      rfl (by simp) hrn

/-! ### PracticeNavigator: `run_practice` (flashcards.py lines 1020-1153)

Each iteration of the inner key loops reads one key.  `PKey` abstracts its
effect: `reveal` is the space key, `back` is b/B, `quitKey` a key sequence
that `check_for_quit` accepts (verified separately by
`check_for_quit_iff`), `skip` a `None` from `get_key`, an unrecognized
key, or a rejected q-sequence — all of which leave the loop state
unchanged.  Each input carries the millisecond time at which it is
processed; `t0` is the session start.  On quit and on completion the
navigator emits the single `save_practice_time` record (duration = now
minus start, tagged with the group selection) and no per-item record. -/

inductive PKey where
  | reveal
  | back
  | quitKey
  | skip
deriving DecidableEq, Repr

inductive PState where
  | run (i : Nat) (revealed : Bool)
  | done (events : List SinkEvent)
deriving DecidableEq, Repr

/-- One key handled by `run_practice`: at the question step (`revealed =
false`) space breaks to the answer display, `b` with `i > 0` moves the
cursor back (and with `i = 0` falls through `check_for_quit` as a no-op);
at the answer step space advances the cursor — leaving the `while i <
total_words` loop when it reaches `total` (practice complete) — and `b`
behaves as at the question step.  Quit saves the elapsed duration and
returns; so does completion. -/
def practice_step (total : Nat) (sel : List Int) (t0 : Nat) :
    PState → PKey × Nat → PState
  | .done es, _ => .done es
  | .run i r, (k, t) =>
    match r, k with
    | false, .reveal => .run i true
    | false, .back => if 0 < i then .run (i - 1) false else .run i false
    | false, .quitKey => .done [.practiceTime sel (t - t0)]
    | false, .skip => .run i false
    | true, .reveal =>
        if i + 1 < total then .run (i + 1) false
        else .done [.practiceTime sel (t - t0)]
    | true, .back => if 0 < i then .run (i - 1) false else .run i true
    | true, .quitKey => .done [.practiceTime sel (t - t0)]
    | true, .skip => .run i true

def practiceRun (total : Nat) (sel : List Int) (t0 : Nat)
    (inputs : List (PKey × Nat)) (s : PState) : PState :=
  inputs.foldl (practice_step total sel t0) s

/-- C8.  Pressing back at cursor 0 is a no-op at both the question and the
answer step (the `i > 0` guard); pressing back at `i > 0` decrements the
cursor by exactly one at both steps; and in a 5-item practice session four
reveal-plus-advance pairs followed by one back leave the cursor at 3. -/
theorem practice_back_navigation (total : Nat) (sel : List Int) (t0 t : Nat)
    (i : Nat) (r : Bool) :
    practice_step total sel t0 (.run 0 r) (.back, t) = .run 0 r ∧
      (0 < i →
        practice_step total sel t0 (.run i r) (.back, t) = .run (i - 1) false) ∧
      practiceRun 5 sel t0
        [(.reveal, 0), (.reveal, 0), (.reveal, 0), (.reveal, 0), (.reveal, 0),
         (.reveal, 0), (.reveal, 0), (.reveal, 0), (.back, 0)]
        (.run 0 false) = .run 3 false := by
  refine ⟨?_, ?_, ?_⟩
  · cases r <;> rfl
  · intro hi
    cases r <;> simp [practice_step, hi]
  · rfl

/-- Witness for C8 at concrete arguments (cursor 2, question step). -/
theorem practice_back_navigation_w :
    practice_step 5 [0] 0 (.run 0 false) (.back, 7) = .run 0 false ∧
      (0 < 2 →
        practice_step 5 [0] 0 (.run 2 false) (.back, 7) = .run 1 false) ∧
      practiceRun 5 [0] 0
        [(.reveal, 0), (.reveal, 0), (.reveal, 0), (.reveal, 0), (.reveal, 0),
         (.reveal, 0), (.reveal, 0), (.reveal, 0), (.back, 0)]
        (.run 0 false) = .run 3 false :=
  practice_back_navigation 5 [0] 0 7 2 false

def isAnswerEvent : SinkEvent → Bool
  | .answer _ _ => true
  | .practiceTime _ _ => false

lemma practiceRun_done_absorb (total : Nat) (sel : List Int) (t0 : Nat) :
    ∀ (inputs : List (PKey × Nat)) (es : List SinkEvent),
      practiceRun total sel t0 inputs (.done es) = .done es := by
  intro inputs
  induction inputs with
  | nil => intro es; rfl
  | cons p rest ih =>
    intro es
    obtain ⟨k, t⟩ := p
    unfold practiceRun at ih ⊢
    rw [List.foldl_cons]
    exact ih es

lemma practice_step_done (total : Nat) (sel : List Int) (t0 : Nat)
    (i : Nat) (r : Bool) (k : PKey) (t : Nat) (es : List SinkEvent)
    (h : practice_step total sel t0 (.run i r) (k, t) = .done es) :
    es = [.practiceTime sel (t - t0)] := by
  cases r <;> cases k <;> simp only [practice_step] at h
  · exact absurd h (by simp)
  · split at h
    · exact absurd h (by simp)
    · exact absurd h (by simp)
  · cases h; rfl
  · exact absurd h (by simp)
  · split at h
    · exact absurd h (by simp)
    · cases h; rfl
  · split at h
    · exact absurd h (by simp)
    · exact absurd h (by simp)
  · cases h; rfl
  · exact absurd h (by simp)

lemma practiceRun_single_write (total : Nat) (sel : List Int) (t0 : Nat) :
    ∀ (inputs : List (PKey × Nat)) (i : Nat) (r : Bool) (es : List SinkEvent),
      practiceRun total sel t0 inputs (.run i r) = .done es →
      ∃ t, es = [.practiceTime sel (t - t0)] := by
  intro inputs
  induction inputs with
  | nil =>
    intro i r es h
    exact absurd h (by simp [practiceRun])
  | cons p rest ih =>
    intro i r es h
    obtain ⟨k, t⟩ := p
    unfold practiceRun at h
    rw [List.foldl_cons] at h
    cases hs : practice_step total sel t0 (.run i r) (k, t) with
    | run i' r' =>
      rw [hs] at h
      exact ih i' r' es h
    | done es' =>
      rw [hs] at h
      rw [show List.foldl (practice_step total sel t0) (PState.done es') rest =
          practiceRun total sel t0 rest (.done es') from rfl,
        practiceRun_done_absorb] at h
      injection h with hes
      subst hes
      exact ⟨t, practice_step_done total sel t0 i r k t es' hs⟩

lemma drainList_events_answers (judge : Nat → Bool) :
    ∀ (ps : List (Word × Nat)) (s : QuizState),
      (drainList judge ps s).2.all isAnswerEvent = true := by
  intro ps
  induction ps with
  | nil => intro s; rfl
  | cons p ps ih =>
    intro s
    obtain ⟨w, st⟩ := p
    unfold drainList
    split
    · dsimp only
      rw [List.all_cons, Bool.and_eq_true]
      exact ⟨rfl, ih _⟩
    · dsimp only
      rw [List.all_cons, Bool.and_eq_true]
      exact ⟨rfl, ih _⟩

lemma runEvents_all_answers (rnd : Nat → Nat) (judge : Nat → Bool) :
    ∀ (n : Nat) (s : QuizState),
      (runEvents rnd judge n s).all isAnswerEvent = true := by
  intro n
  induction n with
  | zero => intro s; rfl
  | succ n ih =>
    intro s
    unfold runEvents
    rw [List.all_append, Bool.and_eq_true]
    refine ⟨?_, ih _⟩
    obtain ⟨q, reps, pos, cc, ic, jI, rI⟩ := s
    unfold sessionStepEv
    match q with
    | (w, needed) :: rest =>
      dsimp only
      split <;> rfl
    | [] =>
      dsimp only
      split
      · rfl
      · exact drainList_events_answers judge _ _

/-- C9 (amended).  A practice session end — quit at the question step,
quit at the answer step, or natural completion — writes exactly one
elapsed-duration record to the result sink, tagged with the group
selection and measuring current time minus session start, and no per-item
record.  A quiz session writes only per-item answer records during the
session; no step, the terminal one included, ever writes an aggregate
record (`show_final_score` only displays the counts). -/
theorem session_end_sink_writes :
    (∀ (total : Nat) (sel : List Int) (t0 : Nat) (inputs : List (PKey × Nat))
        (i : Nat) (r : Bool) (es : List SinkEvent),
        practiceRun total sel t0 inputs (.run i r) = .done es →
        ∃ t, es = [.practiceTime sel (t - t0)]) ∧
      ∀ (rnd : Nat → Nat) (judge : Nat → Bool) (n : Nat) (s : QuizState),
        (runEvents rnd judge n s).all isAnswerEvent = true :=
  ⟨fun total sel t0 inputs i r es h =>
      practiceRun_single_write total sel t0 inputs i r es h,
    fun rnd judge n s => runEvents_all_answers rnd judge n s⟩

/-- C9 counterexample, for the claim's quiz half: the one-item quiz
session judged correct completes (terminal state after one step), and its
entire sink trace is the single per-item answer row — the number of
aggregate (non-per-item) writes is 0, not exactly 1. -/
theorem quiz_end_no_aggregate_write :
    (runSteps (fun _ => 0) (fun _ => true) 1 (initState [wA])).queue = [] ∧
      (runSteps (fun _ => 0) (fun _ => true) 1 (initState [wA])).repeats = [] ∧
      (runEvents (fun _ => 0) (fun _ => true) 2 (initState [wA])).countP
        (fun ev => !isAnswerEvent ev) ≠ 1 := by
  decide

end Flashcards
